import Mathlib

/-!
# Verification of the Enigma cipher-machine core

A shallow embedding of the rotor/plugboard/reflector signal path and the
rotor-stepping state machine of the repository's Enigma simulator, together
with proofs of the specification's testable properties.

The stepping protocol `stepRotors` is translated from the fixed code shown in
`src/6/fix.md` (two independent `if` branches over pre-step notch snapshots).
The remaining operations (rotor forward/backward math, the per-character
pipeline, message processing, the configuration constructor and the wiring
catalog) are the `enigma.js` module, which the repository ships only through
its tests and documentation; those definitions are modelled from the spec as
noted in their doc comments.
-/

/-- The 26-letter uppercase alphabet, as in the source's `alphabet` constant. -/
def alphabet : List Char := "ABCDEFGHIJKLMNOPQRSTUVWXYZ".toList

/-- The lowercase alphabet, used to model case normalization. -/
def lowerAlphabet : List Char := "abcdefghijklmnopqrstuvwxyz".toList

/-- Character to index 0..25, as the source's `alphabet.indexOf(c)`. -/
def cti (c : Char) : Nat := alphabet.indexOf c

/-- Index 0..25 to character, as the source's `alphabet[i]`. -/
def itc (i : Nat) : Char := alphabet.getD i 'A'

/-- Modelled from the spec: `encryptChar` "normalize[s] to uppercase"
(§4.5 step 2) and `process` uppercases the message (§4.5); the machine's
scope is the 26-letter alphabet (letters A-Z, case-insensitive, §6), so
uppercasing maps `a`..`z` to `A`..`Z` and leaves every other character
unchanged. -/
def toUpperChar (c : Char) : Char :=
  if c ∈ lowerAlphabet then alphabet.getD (lowerAlphabet.indexOf c) 'A' else c

/-- The always-nonnegative modulus by 26, as the source's
`mod(n, 26) = ((n % 26) + 26) % 26` helper. -/
def mod26 (n : Int) : Nat := (n % 26).toNat

/-- A rotor: fixed wiring (as letter indices), notch index, ring setting and
rotational position (§3 of the spec). -/
structure Rotor where
  wiring : List Nat
  notch : Nat
  ringSetting : Nat
  position : Nat
deriving DecidableEq, Repr

/-- `step()`: `position = (position + 1) mod 26` (§4.2). -/
def Rotor.step (r : Rotor) : Rotor :=
  { r with position := (r.position + 1) % 26 }

/-- `atNotch()`: `position == notch` (§4.2). -/
def Rotor.atNotch (r : Rotor) : Bool :=
  r.position == r.notch

/-- Modelled from the spec: the forward electrical pass (§4.2):
`shifted = (charIndex + position - ringSetting + 26) mod 26`;
`mapped = wiring[shifted]`;
`output = (mapped - position + ringSetting + 26) mod 26`.
The `enigma.js` body is not under `src/`. -/
def Rotor.forward (r : Rotor) (i : Nat) : Nat :=
  mod26 ((r.wiring.getD (mod26 ((i : Int) + r.position - r.ringSetting)) 0 : Int)
    - r.position + r.ringSetting)

/-- Modelled from the spec: the backward pass (§4.2), "identical
shift/unshift logic but uses the inverse wiring table in place of `wiring`"
(the inverse table lookup of `x` is the index of `x` in `wiring`). -/
def Rotor.backward (r : Rotor) (i : Nat) : Nat :=
  mod26 ((r.wiring.indexOf (mod26 ((i : Int) + r.position - r.ringSetting)) : Int)
    - r.position + r.ringSetting)

/-- Modelled from the spec: `swap(char, pairs)` (§4.1): the paired letter if
the input appears in some pair, otherwise the input unchanged; mirrors the
source's `plugboardSwap` scanning the pair list. -/
def plugboardSwap (c : Char) : List (Char × Char) → Char
  | [] => c
  | (a, b) :: rest =>
    if c = a then b else if c = b then a else plugboardSwap c rest

/-- The cipher engine: exactly three rotors in left-to-right order plus the
plugboard pair list (§3); the reflector is the fixed built-in table. -/
structure Enigma where
  left : Rotor
  middle : Rotor
  right : Rotor
  pairs : List (Char × Char)
deriving DecidableEq, Repr

/-- The stepping protocol, translated from the fixed `stepRotors` in
`src/6/fix.md`: snapshot both notch flags before any stepping; if the middle
rotor was at its notch, step the left and middle rotors; if the right rotor
was at its notch, step the middle rotor (an independent `if`); always step
the right rotor. -/
def stepRotors (e : Enigma) : Enigma :=
  let e1 := if e.middle.position = e.middle.notch
    then { e with left := e.left.step, middle := e.middle.step } else e
  let e2 := if e.right.position = e.right.notch
    then { e1 with middle := e1.middle.step } else e1
  { e2 with right := e2.right.step }

/-- Modelled from the spec: the fixed reflector table (UKW-B), "a fixed
involutive permutation table over the alphabet" (§3, §6); the concrete
constant lives in the missing `enigma.js`. -/
def REFLECTOR : List Char := "YRUHQSLDPXNGOKMIEBFZCWVJAT".toList

/-- The reflector as an index table. -/
def reflectorTable : List Nat := REFLECTOR.map cti

/-- `reflect(charIndex)`: a direct table lookup (§4.3). -/
def reflect (i : Nat) : Nat := reflectorTable.getD i 0

/-- The rotor/reflector index path of §4.5 steps 4-6: forward right-to-left,
reflect, backward left-to-right. -/
def encIndex (e : Enigma) (i : Nat) : Nat :=
  e.right.backward (e.middle.backward (e.left.backward
    (reflect (e.left.forward (e.middle.forward (e.right.forward i))))))

/-- §4.5 steps 3-8 for an uppercase letter at a fixed rotor state:
plugboard, rotor/reflector path, plugboard again. -/
def encOut (e : Enigma) (c : Char) : Char :=
  plugboardSwap (itc (encIndex e (cti (plugboardSwap c e.pairs)))) e.pairs

/-- Modelled from the spec: `encryptChar` (§4.5): non-alphabetic characters
are returned unchanged with no stepping; otherwise normalize to uppercase,
run the stepping protocol once, then the plugboard/rotor/reflector pipeline.
Returns the successor engine state together with the output character. -/
def encryptChar (e : Enigma) (c : Char) : Enigma × Char :=
  if toUpperChar c ∈ alphabet then
    (stepRotors e, encOut (stepRotors e) (toUpperChar c))
  else (e, c)

/-- The character loop of `process`: thread the engine state through
`encryptChar` over the message. -/
def processChars : Enigma → List Char → Enigma × List Char
  | e, [] => (e, [])
  | e, c :: cs =>
    let r := encryptChar e c
    let rest := processChars r.1 cs
    (rest.1, r.2 :: rest.2)

/-- Modelled from the spec: `process(message)` (§4.5): uppercase the message,
call `encryptChar` on every character in order, concatenate results. -/
def process (e : Enigma) (cs : List Char) : Enigma × List Char :=
  processChars e (cs.map toUpperChar)

/-- Modelled from the spec: the fixed rotor catalog (§6) whose entries supply
a wiring permutation and a notch letter; the historical I/II/III tables with
notches Q, E, V, as pinned by the repository's tests. -/
def ROTORS : List (List Char × Char) :=
  [("EKMFLGDQVZNTOWYHXUSPAIBRCJ".toList, 'Q'),
   ("AJDKSIRUXBLHWTMCQGZNPYFVOE".toList, 'E'),
   ("BDFHJLCPRMTWZYXVSOQUIAGNKE".toList, 'V')]

/-- The notch index of catalog entry `i`. -/
def notchOf (i : Nat) : Nat := cti (ROTORS.getD i ([], 'A')).2

/-- Modelled from the spec: building one rotor from a catalog index, a ring
setting and a starting position (§6). -/
def mkRotor (id ring pos : Nat) : Rotor :=
  { wiring := (ROTORS.getD id ([], 'A')).1.map cti
    notch := notchOf id
    ringSetting := ring
    position := pos }

/-- Modelled from the spec: engine construction from configuration (§6):
three catalog indices, starting positions and ring settings in left-to-right
order, and the plugboard pairs.  Per §9 the source performs no
construction-time validation, so the constructor is total. -/
def mkEnigma (ids pos rings : List Nat) (pairs : List (Char × Char)) : Enigma :=
  { left := mkRotor (ids.getD 0 0) (rings.getD 0 0) (pos.getD 0 0)
    middle := mkRotor (ids.getD 1 0) (rings.getD 1 0) (pos.getD 1 0)
    right := mkRotor (ids.getD 2 0) (rings.getD 2 0) (pos.getD 2 0)
    pairs := pairs }

/-- The letters mentioned by a plugboard pair list, in order. -/
def pairLetters : List (Char × Char) → List Char
  | [] => []
  | (a, b) :: rest => a :: b :: pairLetters rest

/-- A well-formed plugboard configuration (§3, §6): each letter used at most
once across all pairs, every letter an uppercase letter. -/
def validPairs (pairs : List (Char × Char)) : Prop :=
  (pairLetters pairs).Nodup ∧ ∀ p ∈ pairs, p.1 ∈ alphabet ∧ p.2 ∈ alphabet

/-- A wiring table that is a total bijection of the 26 letter indices (§3),
stated operationally over the list operations the rotor passes use. -/
def wiringPerm (w : List Nat) : Prop :=
  w.length = 26 ∧
  (∀ i < 26, w.getD i 0 < 26) ∧
  (∀ i < 26, w.indexOf (w.getD i 0) = i) ∧
  (∀ x < 26, w.indexOf x < 26 ∧ w.getD (w.indexOf x) 0 = x)

/-- A valid construction configuration (§6). -/
def ValidConfig (ids pos rings : List Nat) (pairs : List (Char × Char)) : Prop :=
  ids.length = 3 ∧ (∀ i ∈ ids, i < 3) ∧
  pos.length = 3 ∧ (∀ p ∈ pos, p < 26) ∧
  rings.length = 3 ∧ (∀ x ∈ rings, x < 26) ∧
  validPairs pairs

/-- An engine whose three wirings are bijections and whose plugboard is
well-formed; positions are unconstrained (all arithmetic is mod 26). -/
def WellFormed (e : Enigma) : Prop :=
  wiringPerm e.left.wiring ∧ wiringPerm e.middle.wiring ∧
  wiringPerm e.right.wiring ∧ validPairs e.pairs

/-- The three rotor positions, left to right: the engine's only mutable
state (§3). -/
def posTriple (e : Enigma) : Nat × Nat × Nat :=
  (e.left.position, e.middle.position, e.right.position)

/-- The positions in [0,25] invariant of §3. -/
def PosWF (e : Enigma) : Prop :=
  e.left.position < 26 ∧ e.middle.position < 26 ∧ e.right.position < 26

/-- The stepping protocol restricted to the position triple, with the middle
and right notch indices as parameters. -/
def posStep (nm nr : Nat) (p : Nat × Nat × Nat) : Nat × Nat × Nat :=
  let pl1 := if p.2.1 = nm then (p.1 + 1) % 26 else p.1
  let pm1 := if p.2.1 = nm then (p.2.1 + 1) % 26 else p.2.1
  let pm2 := if p.2.2 = nr then (pm1 + 1) % 26 else pm1
  (pl1, pm2, (p.2.2 + 1) % 26)

instance (prs : List (Char × Char)) : Decidable (validPairs prs) := by
  unfold validPairs; infer_instance

instance (w : List Nat) : Decidable (wiringPerm w) := by
  unfold wiringPerm; infer_instance

instance (ids pos rings : List Nat) (pairs : List (Char × Char)) :
    Decidable (ValidConfig ids pos rings pairs) := by
  unfold ValidConfig; infer_instance

instance (e : Enigma) : Decidable (PosWF e) := by
  unfold PosWF; infer_instance

/-! ## Arithmetic facts about `mod26` -/

theorem mod26_lt (n : Int) : mod26 n < 26 := by unfold mod26; omega

theorem mod26_unshift_shift (m p g : Nat) (hm : m < 26) :
    mod26 ((mod26 ((m : Int) - p + g) : Int) + p - g) = m := by unfold mod26; omega

theorem mod26_shift_unshift (i p g : Nat) (hi : i < 26) :
    mod26 ((mod26 ((i : Int) + p - g) : Int) - p + g) = i := by unfold mod26; omega

/-! ## Alphabet and case-normalization facts -/

theorem cti_lt_of_mem : ∀ c ∈ alphabet, cti c < 26 := by decide

theorem itc_mem : ∀ i < 26, itc i ∈ alphabet := by decide

theorem cti_itc : ∀ i < 26, cti (itc i) = i := by decide

theorem itc_cti : ∀ c ∈ alphabet, itc (cti c) = c := by decide

theorem toUpperChar_mem : ∀ c ∈ alphabet, toUpperChar c = c := by decide

theorem lower_toUpper_mem : ∀ c ∈ lowerAlphabet, toUpperChar c ∈ alphabet := by decide

theorem toUpperChar_of_not_lower (c : Char) (h : c ∉ lowerAlphabet) :
    toUpperChar c = c := by
  simp [toUpperChar, h]

theorem toUpperChar_of_nonalpha (c : Char) (h : toUpperChar c ∉ alphabet) :
    toUpperChar c = c := by
  by_cases hl : c ∈ lowerAlphabet
  · exact absurd (lower_toUpper_mem c hl) h
  · exact toUpperChar_of_not_lower c hl

theorem toUpperChar_idem (c : Char) : toUpperChar (toUpperChar c) = toUpperChar c := by
  by_cases hl : c ∈ lowerAlphabet
  · exact toUpperChar_mem _ (lower_toUpper_mem c hl)
  · rw [toUpperChar_of_not_lower c hl]
    exact toUpperChar_of_not_lower c hl

theorem map_toUpper_id (cs : List Char) (h : ∀ c ∈ cs, c ∈ alphabet) :
    cs.map toUpperChar = cs := by
  induction cs with
  | nil => rfl
  | cons c cs ih =>
    rw [List.map_cons, toUpperChar_mem c (h c (List.mem_cons_self c cs)),
      ih fun x hx => h x (List.mem_cons_of_mem c hx)]

theorem map_toUpper_toUpper (cs : List Char) :
    (cs.map toUpperChar).map toUpperChar = cs.map toUpperChar := by
  induction cs with
  | nil => rfl
  | cons c cs ih => simp only [List.map_cons, toUpperChar_idem, ih]

/-! ## Plugboard facts -/

theorem pairLetters_alpha (prs : List (Char × Char))
    (hv : ∀ p ∈ prs, p.1 ∈ alphabet ∧ p.2 ∈ alphabet) :
    ∀ x ∈ pairLetters prs, x ∈ alphabet := by
  induction prs with
  | nil => intro x hx; cases hx
  | cons hd tl ih =>
    intro x hx
    obtain ⟨a, b⟩ := hd
    simp only [pairLetters, List.mem_cons] at hx
    rcases hx with rfl | rfl | hx
    · exact (hv (x, b) (List.mem_cons_self _ _)).1
    · exact (hv (a, x) (List.mem_cons_self _ _)).2
    · exact ih (fun p hp => hv p (List.mem_cons_of_mem _ hp)) x hx

theorem plugboardSwap_mem_or_eq (c : Char) (prs : List (Char × Char)) :
    plugboardSwap c prs = c ∨ plugboardSwap c prs ∈ pairLetters prs := by
  induction prs with
  | nil => exact Or.inl rfl
  | cons hd tl ih =>
    obtain ⟨a, b⟩ := hd
    by_cases h1 : c = a
    · right; simp [plugboardSwap, h1, pairLetters]
    · by_cases h2 : c = b
      · right; simp [plugboardSwap, h1, h2, pairLetters]
      · rcases ih with h | h
        · left; simpa [plugboardSwap, h1, h2] using h
        · right
          simp only [plugboardSwap, h1, h2, if_false, pairLetters]
          exact List.mem_cons_of_mem _ (List.mem_cons_of_mem _ h)

theorem plugboardSwap_swap (c : Char) (prs : List (Char × Char))
    (h : (pairLetters prs).Nodup) :
    plugboardSwap (plugboardSwap c prs) prs = c := by
  induction prs with
  | nil => rfl
  | cons hd tl ih =>
    obtain ⟨a, b⟩ := hd
    have hab : a ≠ b := by
      intro hab
      exact (List.nodup_cons.mp h).1 (hab ▸ List.mem_cons_self _ _)
    have hatl : a ∉ pairLetters tl := fun hm =>
      (List.nodup_cons.mp h).1 (List.mem_cons_of_mem _ hm)
    have hbtl : b ∉ pairLetters tl :=
      (List.nodup_cons.mp (List.nodup_cons.mp h).2).1
    have htl : (pairLetters tl).Nodup := (List.nodup_cons.mp (List.nodup_cons.mp h).2).2
    by_cases h1 : c = a
    · subst h1
      simp [plugboardSwap, hab, Ne.symm hab]
    · by_cases h2 : c = b
      · subst h2
        simp [plugboardSwap, h1, Ne.symm hab]
      · have hd1 : plugboardSwap c tl ≠ a := by
          rcases plugboardSwap_mem_or_eq c tl with hh | hh
          · rw [hh]; exact h1
          · intro he; exact hatl (he ▸ hh)
        have hd2 : plugboardSwap c tl ≠ b := by
          rcases plugboardSwap_mem_or_eq c tl with hh | hh
          · rw [hh]; exact h2
          · intro he; exact hbtl (he ▸ hh)
        simp only [plugboardSwap, h1, h2, if_false, hd1, hd2]
        exact ih htl

theorem plugboardSwap_alpha (c : Char) (prs : List (Char × Char))
    (hv : validPairs prs) (hc : c ∈ alphabet) :
    plugboardSwap c prs ∈ alphabet := by
  rcases plugboardSwap_mem_or_eq c prs with h | h
  · rw [h]; exact hc
  · exact pairLetters_alpha prs hv.2 _ h

/-! ## Rotor pass facts -/

theorem Rotor.forward_lt (r : Rotor) (i : Nat) : r.forward i < 26 := mod26_lt _

theorem Rotor.backward_lt (r : Rotor) (i : Nat) : r.backward i < 26 := mod26_lt _

theorem Rotor.backward_forward (r : Rotor) (hw : wiringPerm r.wiring)
    (i : Nat) (hi : i < 26) : r.backward (r.forward i) = i := by
  obtain ⟨hlen, hbound, hidx, hsurj⟩ := hw
  have hslt : mod26 ((i : Int) + r.position - r.ringSetting) < 26 := mod26_lt _
  have hmlt : r.wiring.getD (mod26 ((i : Int) + r.position - r.ringSetting)) 0 < 26 :=
    hbound _ hslt
  unfold Rotor.forward Rotor.backward
  rw [mod26_unshift_shift _ _ _ hmlt, hidx _ hslt]
  exact mod26_shift_unshift i _ _ hi

theorem Rotor.forward_backward (r : Rotor) (hw : wiringPerm r.wiring)
    (i : Nat) (hi : i < 26) : r.forward (r.backward i) = i := by
  obtain ⟨hlen, hbound, hidx, hsurj⟩ := hw
  have hslt : mod26 ((i : Int) + r.position - r.ringSetting) < 26 := mod26_lt _
  have hmlt : r.wiring.indexOf (mod26 ((i : Int) + r.position - r.ringSetting)) < 26 :=
    (hsurj _ hslt).1
  unfold Rotor.forward Rotor.backward
  rw [mod26_unshift_shift _ _ _ hmlt, (hsurj _ hslt).2]
  exact mod26_shift_unshift i _ _ hi

/-! ## Reflector facts -/

theorem reflect_lt : ∀ i < 26, reflect i < 26 := by decide

theorem reflect_reflect : ∀ i < 26, reflect (reflect i) = i := by decide

theorem reflect_ne : ∀ i < 26, reflect i ≠ i := by decide

/-! ## The rotor/reflector index path -/

theorem encIndex_lt (e : Enigma) (i : Nat) : encIndex e i < 26 :=
  Rotor.backward_lt _ _

theorem encIndex_invol (e : Enigma) (hw : WellFormed e) (i : Nat) (hi : i < 26) :
    encIndex e (encIndex e i) = i := by
  obtain ⟨hl, hm, hr, hp⟩ := hw
  unfold encIndex
  rw [Rotor.forward_backward e.right hr _ (Rotor.backward_lt e.middle _)]
  rw [Rotor.forward_backward e.middle hm _ (Rotor.backward_lt e.left _)]
  rw [Rotor.forward_backward e.left hl _ (reflect_lt _ (Rotor.forward_lt e.left _))]
  rw [reflect_reflect _ (Rotor.forward_lt e.left _)]
  rw [Rotor.backward_forward e.left hl _ (Rotor.forward_lt e.middle _)]
  rw [Rotor.backward_forward e.middle hm _ (Rotor.forward_lt e.right _)]
  exact Rotor.backward_forward e.right hr i hi

theorem encIndex_ne (e : Enigma) (hw : WellFormed e) (i : Nat) (hi : i < 26) :
    encIndex e i ≠ i := by
  obtain ⟨hl, hm, hr, hp⟩ := hw
  intro heq
  have h1 : e.right.forward (encIndex e i) = e.right.forward i := by rw [heq]
  unfold encIndex at h1
  rw [Rotor.forward_backward e.right hr _ (Rotor.backward_lt e.middle _)] at h1
  have h2 := congrArg e.middle.forward h1
  rw [Rotor.forward_backward e.middle hm _ (Rotor.backward_lt e.left _)] at h2
  have h3 := congrArg e.left.forward h2
  rw [Rotor.forward_backward e.left hl _
    (reflect_lt _ (Rotor.forward_lt e.left _))] at h3
  exact reflect_ne _ (Rotor.forward_lt e.left _) h3

/-! ## The fixed-state character pipeline -/

theorem encOut_alpha (e : Enigma) (hp : validPairs e.pairs) (c : Char)
    (hc : c ∈ alphabet) : encOut e c ∈ alphabet := by
  unfold encOut
  exact plugboardSwap_alpha _ _ hp (itc_mem _ (encIndex_lt _ _))

theorem encOut_invol (e : Enigma) (hw : WellFormed e) (c : Char)
    (hc : c ∈ alphabet) : encOut e (encOut e c) = c := by
  have hp : validPairs e.pairs := hw.2.2.2
  have hd : plugboardSwap c e.pairs ∈ alphabet := plugboardSwap_alpha _ _ hp hc
  unfold encOut
  rw [plugboardSwap_swap _ _ hp.1]
  rw [cti_itc _ (encIndex_lt _ _)]
  rw [encIndex_invol e hw _ (cti_lt_of_mem _ hd)]
  rw [itc_cti _ hd]
  exact plugboardSwap_swap c e.pairs hp.1

theorem encOut_ne (e : Enigma) (hw : WellFormed e) (c : Char)
    (hc : c ∈ alphabet) : encOut e c ≠ c := by
  have hp : validPairs e.pairs := hw.2.2.2
  have hd : plugboardSwap c e.pairs ∈ alphabet := plugboardSwap_alpha _ _ hp hc
  intro heq
  have h1 : plugboardSwap (encOut e c) e.pairs = plugboardSwap c e.pairs := by rw [heq]
  unfold encOut at h1
  rw [plugboardSwap_swap _ _ hp.1] at h1
  have h2 := congrArg cti h1
  rw [cti_itc _ (encIndex_lt _ _)] at h2
  exact encIndex_ne e hw _ (cti_lt_of_mem _ hd) h2

/-! ## Stepping protocol structure -/

theorem stepRotors_posTriple (e : Enigma) :
    posTriple (stepRotors e) = posStep e.middle.notch e.right.notch (posTriple e) := by
  by_cases h1 : e.middle.position = e.middle.notch <;>
    by_cases h2 : e.right.position = e.right.notch <;>
      simp [stepRotors, posStep, posTriple, Rotor.step, h1, h2]

theorem stepRotors_middle_notch (e : Enigma) :
    (stepRotors e).middle.notch = e.middle.notch := by
  by_cases h1 : e.middle.position = e.middle.notch <;>
    by_cases h2 : e.right.position = e.right.notch <;>
      simp [stepRotors, Rotor.step, h1, h2]

theorem stepRotors_right_notch (e : Enigma) :
    (stepRotors e).right.notch = e.right.notch := by
  by_cases h1 : e.middle.position = e.middle.notch <;>
    by_cases h2 : e.right.position = e.right.notch <;>
      simp [stepRotors, Rotor.step, h1, h2]

theorem WellFormed_stepRotors (e : Enigma) (h : WellFormed e) :
    WellFormed (stepRotors e) := by
  by_cases h1 : e.middle.position = e.middle.notch <;>
    by_cases h2 : e.right.position = e.right.notch <;>
      simpa [stepRotors, Rotor.step, WellFormed, h1, h2] using h

theorem PosWF_stepRotors (e : Enigma) (h : PosWF e) : PosWF (stepRotors e) := by
  by_cases h1 : e.middle.position = e.middle.notch <;>
    by_cases h2 : e.right.position = e.right.notch <;>
      · simp only [stepRotors, Rotor.step, PosWF, h1, h2, if_true, if_false] at h ⊢
        constructor
        · first
          | exact h.1
          | omega
        · constructor <;> omega

/-! ## The per-character transition -/

theorem encryptChar_alpha (e : Enigma) (c : Char) (h : toUpperChar c ∈ alphabet) :
    encryptChar e c = (stepRotors e, encOut (stepRotors e) (toUpperChar c)) := by
  simp [encryptChar, h]

theorem encryptChar_nonalpha (e : Enigma) (c : Char) (h : toUpperChar c ∉ alphabet) :
    encryptChar e c = (e, c) := by
  simp [encryptChar, h]

theorem WellFormed_encryptChar (e : Enigma) (c : Char) (h : WellFormed e) :
    WellFormed (encryptChar e c).1 := by
  by_cases hc : toUpperChar c ∈ alphabet
  · rw [encryptChar_alpha e c hc]; exact WellFormed_stepRotors e h
  · rw [encryptChar_nonalpha e c hc]; exact h

theorem PosWF_encryptChar (e : Enigma) (c : Char) (h : PosWF e) :
    PosWF (encryptChar e c).1 := by
  by_cases hc : toUpperChar c ∈ alphabet
  · rw [encryptChar_alpha e c hc]; exact PosWF_stepRotors e h
  · rw [encryptChar_nonalpha e c hc]; exact h

/-! ## The message loop -/

theorem processChars_cons (e : Enigma) (c : Char) (cs : List Char) :
    processChars e (c :: cs)
      = ((processChars (encryptChar e c).1 cs).1,
         (encryptChar e c).2 :: (processChars (encryptChar e c).1 cs).2) := rfl

theorem WellFormed_processChars (cs : List Char) :
    ∀ e : Enigma, WellFormed e → WellFormed (processChars e cs).1 := by
  induction cs with
  | nil => intro e h; exact h
  | cons c cs ih =>
    intro e h
    rw [processChars_cons]
    exact ih _ (WellFormed_encryptChar e c h)

theorem PosWF_processChars (cs : List Char) :
    ∀ e : Enigma, PosWF e → PosWF (processChars e cs).1 := by
  induction cs with
  | nil => intro e h; exact h
  | cons c cs ih =>
    intro e h
    rw [processChars_cons]
    exact ih _ (PosWF_encryptChar e c h)

theorem processChars_length (cs : List Char) :
    ∀ e : Enigma, (processChars e cs).2.length = cs.length := by
  induction cs with
  | nil => intro e; rfl
  | cons c cs ih =>
    intro e
    rw [processChars_cons]
    simp [ih]

theorem processChars_alpha (cs : List Char) :
    ∀ e : Enigma, WellFormed e → (∀ c ∈ cs, c ∈ alphabet) →
      ∀ x ∈ (processChars e cs).2, x ∈ alphabet := by
  induction cs with
  | nil => intro e _ _ x hx; cases hx
  | cons c cs ih =>
    intro e hw h x hx
    have hc : c ∈ alphabet := h c (List.mem_cons_self c cs)
    have hup : toUpperChar c ∈ alphabet := by
      rw [toUpperChar_mem c hc]; exact hc
    rw [processChars_cons, encryptChar_alpha e c hup] at hx
    rcases List.mem_cons.mp hx with rfl | hx
    · exact encOut_alpha _ (WellFormed_stepRotors e hw).2.2.2 _ hup
    · exact ih _ (WellFormed_stepRotors e hw) (fun y hy => h y (List.mem_cons_of_mem c hy)) x hx

theorem processChars_roundtrip (cs : List Char) :
    ∀ e : Enigma, WellFormed e → (∀ c ∈ cs, c ∈ alphabet) →
      (processChars e (processChars e cs).2).2 = cs := by
  induction cs with
  | nil => intro e _ _; rfl
  | cons c cs ih =>
    intro e hw h
    have hc : c ∈ alphabet := h c (List.mem_cons_self c cs)
    have hupc : toUpperChar c = c := toUpperChar_mem c hc
    have hup : toUpperChar c ∈ alphabet := by rw [hupc]; exact hc
    have hw2 : WellFormed (stepRotors e) := WellFormed_stepRotors e hw
    have hout : encOut (stepRotors e) c ∈ alphabet := encOut_alpha _ hw2.2.2.2 c hc
    have houtup : toUpperChar (encOut (stepRotors e) c) ∈ alphabet := by
      rw [toUpperChar_mem _ hout]; exact hout
    rw [processChars_cons, encryptChar_alpha e c hup, hupc]
    rw [processChars_cons, encryptChar_alpha e _ houtup, toUpperChar_mem _ hout]
    rw [encOut_invol _ hw2 c hc]
    rw [ih _ hw2 (fun y hy => h y (List.mem_cons_of_mem c hy))]

/-! ## The catalog and constructed engines -/

theorem catalogPerm : ∀ id < 3, wiringPerm ((ROTORS.getD id ([], 'A')).1.map cti) := by
  decide

theorem mkEnigma_wf (ids pos rings : List Nat) (pairs : List (Char × Char))
    (hv : ValidConfig ids pos rings pairs) :
    WellFormed (mkEnigma ids pos rings pairs) := by
  obtain ⟨hlen, hmem, _, _, _, _, hp⟩ := hv
  rcases ids with _ | ⟨a, _ | ⟨b, _ | ⟨c, _ | ⟨d, t⟩⟩⟩⟩ <;> simp at hlen
  have ha : a < 3 := hmem a (by simp)
  have hb : b < 3 := hmem b (by simp)
  have hc : c < 3 := hmem c (by simp)
  exact ⟨catalogPerm a ha, catalogPerm b hb, catalogPerm c hc, hp⟩

theorem iterate_posStep (n : Nat) :
    ∀ e : Enigma,
      posTriple ((fun x => (encryptChar x 'A').1)^[n] e)
        = (posStep e.middle.notch e.right.notch)^[n] (posTriple e) := by
  induction n with
  | zero => intro e; rfl
  | succ n ih =>
    intro e
    rw [Function.iterate_succ_apply, Function.iterate_succ_apply]
    have hA : toUpperChar 'A' ∈ alphabet := by decide
    have hstep : (encryptChar e 'A').1 = stepRotors e := by
      rw [encryptChar_alpha e 'A' hA]
    rw [hstep, ih (stepRotors e), stepRotors_middle_notch, stepRotors_right_notch,
      stepRotors_posTriple]

theorem processChars_getD_nonalpha (cs : List Char) :
    ∀ (e : Enigma) (i : Nat), i < cs.length → toUpperChar (cs.getD i 'A') ∉ alphabet →
      (processChars e (cs.map toUpperChar)).2.getD i 'A' = cs.getD i 'A' := by
  induction cs with
  | nil =>
    intro e i hi hn
    exact absurd hi (by simp)
  | cons c cs ih =>
    intro e i hi hn
    rw [List.map_cons, processChars_cons]
    cases i with
    | zero =>
      have hn0 : toUpperChar c ∉ alphabet := by simpa using hn
      have hcond : toUpperChar (toUpperChar c) ∉ alphabet := by
        rw [toUpperChar_idem]; exact hn0
      rw [encryptChar_nonalpha _ _ hcond]
      simpa using toUpperChar_of_nonalpha c hn0
    | succ j =>
      have hj : j < cs.length := by simpa using hi
      have hnj : toUpperChar (cs.getD j 'A') ∉ alphabet := by simpa using hn
      simpa using ih _ j hj hnj

/-! ## Claims -/

/-- C1 (counterexample): the reciprocity round-trip fails as literally stated
for a lowercase alphabetic message: with the valid configuration
`([0,1,2],[0,0,0],[0,0,0],[])` and the alphabetic message `"h"`, two fresh
engines give `process (process "h") = "H" ≠ "h"`, because `process`
normalizes its input to uppercase. -/
theorem C1_counterexample :
    ValidConfig [0, 1, 2] [0, 0, 0] [0, 0, 0] [] ∧
    toUpperChar 'h' ∈ alphabet ∧
    (process (mkEnigma [0, 1, 2] [0, 0, 0] [0, 0, 0] [])
      (process (mkEnigma [0, 1, 2] [0, 0, 0] [0, 0, 0] []) ['h']).2).2 ≠ ['h'] := by
  exact ⟨by decide, by decide, by decide⟩

/-- C1 (amended): for every valid configuration and every message consisting
only of uppercase alphabetic characters, two fresh engines built from the
same configuration compose to the identity:
`engine2.process (engine1.process M) = M`. -/
theorem C1_roundtrip_upper (ids pos rings : List Nat) (pairs : List (Char × Char))
    (hv : ValidConfig ids pos rings pairs) (M : List Char)
    (hM : ∀ c ∈ M, c ∈ alphabet) :
    (process (mkEnigma ids pos rings pairs)
      (process (mkEnigma ids pos rings pairs) M).2).2 = M := by
  have hw : WellFormed (mkEnigma ids pos rings pairs) := mkEnigma_wf ids pos rings pairs hv
  unfold process
  rw [map_toUpper_id M hM]
  rw [map_toUpper_id _ (processChars_alpha M _ hw hM)]
  exact processChars_roundtrip M _ hw hM

/-- C1 (witness): the round-trip at the test configuration on `"HELLO"`. -/
theorem C1_roundtrip_upper_witness :
    (process (mkEnigma [0, 1, 2] [0, 0, 0] [0, 0, 0] [])
      (process (mkEnigma [0, 1, 2] [0, 0, 0] [0, 0, 0] [])
        ['H', 'E', 'L', 'L', 'O']).2).2 = ['H', 'E', 'L', 'L', 'O'] :=
  C1_roundtrip_upper [0, 1, 2] [0, 0, 0] [0, 0, 0] [] (by decide)
    ['H', 'E', 'L', 'L', 'O'] (by decide)

/-- C2: with the middle rotor starting exactly at its notch and the left and
right rotors at 0, one `encryptChar` call on an alphabetic character leaves
the left rotor at 1, the middle rotor at its notch plus 1, and the right
rotor at 1 (the double-stepping anomaly). -/
theorem C2_double_stepping (i0 i1 i2 : Nat) (h0 : i0 < 3) (h1 : i1 < 3) (h2 : i2 < 3)
    (rings : List Nat) (pairs : List (Char × Char)) (c : Char)
    (hc : toUpperChar c ∈ alphabet) :
    posTriple (encryptChar
      (mkEnigma [i0, i1, i2] [0, notchOf i1, 0] rings pairs) c).1
      = (1, notchOf i1 + 1, 1) := by
  rw [encryptChar_alpha _ _ hc]
  show posTriple (stepRotors (mkEnigma [i0, i1, i2] [0, notchOf i1, 0] rings pairs)) = _
  rw [stepRotors_posTriple]
  show posStep (notchOf i1) (notchOf i2) (0, notchOf i1, 0) = (1, notchOf i1 + 1, 1)
  have key : ∀ a < 3, ∀ b < 3,
      posStep (notchOf a) (notchOf b) (0, notchOf a, 0) = (1, notchOf a + 1, 1) := by
    decide
  exact key i1 h1 i2 h2

/-- C2 (witness): the double-step at the test-suite configuration
`([0,1,2],[0,4,0],[0,0,0],[])`, rotor II's notch being E = 4. -/
theorem C2_double_stepping_witness :
    posTriple (encryptChar
      (mkEnigma [0, 1, 2] [0, notchOf 1, 0] [0, 0, 0] []) 'A').1
      = (1, notchOf 1 + 1, 1) :=
  C2_double_stepping 0 1 2 (by decide) (by decide) (by decide) [0, 0, 0] [] 'A' (by decide)

/-- C3: the claim asserts that the middle rotor advances by exactly 1 per
tick even when the right rotor is simultaneously at its own notch; the code
of `src/6/fix.md` instead uses two independent `if` branches, so with the
middle rotor at its notch (rotor II at E = 4) and the right rotor at its
notch (rotor III at V = 21) one `encryptChar` advances the middle rotor
twice, from 4 to 6. -/
theorem C3_middle_double_advance :
    posTriple (encryptChar
      (mkEnigma [0, 1, 2] [0, 4, 21] [0, 0, 0] []) 'A').1 = (1, 6, 22) := by
  decide

/-- C4: non-alphabetic characters are inert: `encryptChar` returns the
character unchanged with the engine state (hence all three rotor positions)
untouched, and `process` keeps every non-letter character of its input
unchanged at its original position (the output also has the input's
length). -/
theorem C4_nonalpha_inert (e : Enigma) (c : Char) (hc : toUpperChar c ∉ alphabet)
    (cs : List Char) (i : Nat) (hi : i < cs.length)
    (hn : toUpperChar (cs.getD i 'A') ∉ alphabet) :
    encryptChar e c = (e, c) ∧
    (process e cs).2.length = cs.length ∧
    (process e cs).2.getD i 'A' = cs.getD i 'A' := by
  refine ⟨encryptChar_nonalpha e c hc, ?_, ?_⟩
  · unfold process
    rw [processChars_length, List.length_map]
  · exact processChars_getD_nonalpha cs e i hi hn

/-- C4 (witness): the digit `'1'` is returned unchanged without stepping, and
the comma of `"A,B"` survives `process` in place. -/
theorem C4_nonalpha_inert_witness :
    encryptChar (mkEnigma [0, 1, 2] [0, 0, 0] [0, 0, 0] []) '1'
        = (mkEnigma [0, 1, 2] [0, 0, 0] [0, 0, 0] [], '1') ∧
    (process (mkEnigma [0, 1, 2] [0, 0, 0] [0, 0, 0] []) ['A', ',', 'B']).2.length = 3 ∧
    (process (mkEnigma [0, 1, 2] [0, 0, 0] [0, 0, 0] []) ['A', ',', 'B']).2.getD 1 'A'
        = (['A', ',', 'B'] : List Char).getD 1 'A' :=
  C4_nonalpha_inert (mkEnigma [0, 1, 2] [0, 0, 0] [0, 0, 0] []) '1' (by decide)
    ['A', ',', 'B'] 1 (by decide) (by decide)

/-- C5 (counterexample): constructing an engine whose plugboard mentions the
letter A in two different pairs does not fail: the constructor is total and
the resulting engine yields output (`process "A" = "B"`), so construction
does not reject the duplicate configuration. -/
theorem C5_counterexample :
    (process (mkEnigma [0, 1, 2] [0, 0, 0] [0, 0, 0] [('A', 'B'), ('A', 'C')])
      ['A']).2 = ['B'] := by
  decide

/-- C5 (amended): the source performs no construction-time plugboard
validation: building an engine from `[("A","B"),("A","C")]` silently
succeeds, the first matching pair takes precedence in swaps, and the engine
produces a one-letter uppercase output for a one-letter input. -/
theorem C5_no_validation :
    plugboardSwap 'A' [('A', 'B'), ('A', 'C')] = 'B' ∧
    plugboardSwap 'B' [('A', 'B'), ('A', 'C')] = 'A' ∧
    plugboardSwap 'C' [('A', 'B'), ('A', 'C')] = 'A' ∧
    (process (mkEnigma [0, 1, 2] [0, 0, 0] [0, 0, 0] [('A', 'B'), ('A', 'C')])
      ['A']).2.length = 1 ∧
    ∀ x ∈ (process (mkEnigma [0, 1, 2] [0, 0, 0] [0, 0, 0] [('A', 'B'), ('A', 'C')])
      ['A']).2, x ∈ alphabet := by
  decide

/-- C6: with all three rotors starting at position 0, after exactly 26
`encryptChar` calls on the letter A the right rotor is back at 0 and the
middle rotor has advanced by exactly 1 (the catalog notches trigger no
further motion). -/
theorem C6_plain_stepping (i0 i1 i2 : Nat) (h0 : i0 < 3) (h1 : i1 < 3) (h2 : i2 < 3)
    (rings : List Nat) (pairs : List (Char × Char)) :
    (posTriple ((fun x => (encryptChar x 'A').1)^[26]
      (mkEnigma [i0, i1, i2] [0, 0, 0] rings pairs))).2.2 = 0 ∧
    (posTriple ((fun x => (encryptChar x 'A').1)^[26]
      (mkEnigma [i0, i1, i2] [0, 0, 0] rings pairs))).2.1 = 1 := by
  have h : posTriple ((fun x => (encryptChar x 'A').1)^[26]
      (mkEnigma [i0, i1, i2] [0, 0, 0] rings pairs))
      = (posStep (notchOf i1) (notchOf i2))^[26] (0, 0, 0) := by
    rw [iterate_posStep 26 (mkEnigma [i0, i1, i2] [0, 0, 0] rings pairs)]
    rfl
  have key : ∀ a < 3, ∀ b < 3,
      (posStep (notchOf a) (notchOf b))^[26] (0, 0, 0) = (0, 1, 0) := by decide
  rw [h, key i1 h1 i2 h2]
  exact ⟨rfl, rfl⟩

/-- C6 (witness): the 26-step revolution at the test configuration
`([0,1,2],[0,0,0],[0,0,0],[])`. -/
theorem C6_plain_stepping_witness :
    (posTriple ((fun x => (encryptChar x 'A').1)^[26]
      (mkEnigma [0, 1, 2] [0, 0, 0] [0, 0, 0] []))).2.2 = 0 ∧
    (posTriple ((fun x => (encryptChar x 'A').1)^[26]
      (mkEnigma [0, 1, 2] [0, 0, 0] [0, 0, 0] []))).2.1 = 1 :=
  C6_plain_stepping 0 1 2 (by decide) (by decide) (by decide) [0, 0, 0] []

/-- C7: with the right rotor starting exactly at its notch and the middle
rotor not at its own notch, one `encryptChar` call on an alphabetic
character advances both the right and the middle rotor by exactly 1 and
leaves the left rotor unchanged. -/
theorem C7_right_notch (i0 i1 i2 : Nat) (h0 : i0 < 3) (h1 : i1 < 3) (h2 : i2 < 3)
    (pl pm : Nat) (hpl : pl < 26) (hpm : pm < 26) (hm : pm ≠ notchOf i1)
    (rings : List Nat) (pairs : List (Char × Char)) (c : Char)
    (hc : toUpperChar c ∈ alphabet) :
    posTriple (encryptChar
      (mkEnigma [i0, i1, i2] [pl, pm, notchOf i2] rings pairs) c).1
      = (pl, (pm + 1) % 26, notchOf i2 + 1) := by
  rw [encryptChar_alpha _ _ hc]
  show posTriple (stepRotors (mkEnigma [i0, i1, i2] [pl, pm, notchOf i2] rings pairs)) = _
  rw [stepRotors_posTriple]
  show posStep (notchOf i1) (notchOf i2) (pl, pm, notchOf i2)
      = (pl, (pm + 1) % 26, notchOf i2 + 1)
  have hr1 : (notchOf i2 + 1) % 26 = notchOf i2 + 1 := by
    have h3 : i2 = 0 ∨ i2 = 1 ∨ i2 = 2 := by omega
    rcases h3 with rfl | rfl | rfl <;> decide
  simp [posStep, hm, hr1]

/-- C7 (witness): the test-suite configuration `([0,1,2],[0,0,21],[0,0,0],[])`,
rotor III's notch being V = 21. -/
theorem C7_right_notch_witness :
    posTriple (encryptChar
      (mkEnigma [0, 1, 2] [0, 0, notchOf 2] [0, 0, 0] []) 'A').1
      = (0, (0 + 1) % 26, notchOf 2 + 1) :=
  C7_right_notch 0 1 2 (by decide) (by decide) (by decide) 0 0 (by decide) (by decide)
    (by decide) [0, 0, 0] [] 'A' (by decide)

/-- C9: rotor positions stay in [0,25]: `step` computes
`(position + 1) % 26` (so 25 wraps to 0), and the stepping protocol,
`encryptChar` and `process` keep all three positions of an in-range engine
in [0,25]. -/
theorem C9_position_range (r : Rotor) (hr : r.position < 26) (e : Enigma)
    (he : PosWF e) (cs : List Char) :
    r.step.position = (r.position + 1) % 26 ∧
    r.step.position < 26 ∧
    (Rotor.step { r with position := 25 }).position = 0 ∧
    PosWF (stepRotors e) ∧
    (∀ c, PosWF (encryptChar e c).1) ∧
    PosWF (process e cs).1 := by
  refine ⟨rfl, ?_, ?_, PosWF_stepRotors e he, fun c => PosWF_encryptChar e c he, ?_⟩
  · show (r.position + 1) % 26 < 26
    omega
  · show (25 + 1) % 26 = 0
    rfl
  · exact PosWF_processChars _ e he

/-- C9 (witness): the invariant at a catalog rotor and the test engine. -/
theorem C9_position_range_witness :
    (mkRotor 0 0 0).step.position = ((mkRotor 0 0 0).position + 1) % 26 ∧
    (mkRotor 0 0 0).step.position < 26 ∧
    (Rotor.step { mkRotor 0 0 0 with position := 25 }).position = 0 ∧
    PosWF (stepRotors (mkEnigma [0, 1, 2] [0, 0, 0] [0, 0, 0] [])) ∧
    (∀ c, PosWF (encryptChar (mkEnigma [0, 1, 2] [0, 0, 0] [0, 0, 0] []) c).1) ∧
    PosWF (process (mkEnigma [0, 1, 2] [0, 0, 0] [0, 0, 0] []) ['A', '!']).1 :=
  C9_position_range (mkRotor 0 0 0) (by decide)
    (mkEnigma [0, 1, 2] [0, 0, 0] [0, 0, 0] []) (by decide) ['A', '!']

/-- C10: from any state reachable from a valid configuration (the built
engine after processing any prior message), `encryptChar` on an alphabetic
character returns an uppercase letter different from the uppercase form of
the input: the cipher has no fixed points. -/
theorem C10_no_fixed_points (ids pos rings : List Nat) (pairs : List (Char × Char))
    (hv : ValidConfig ids pos rings pairs) (ms : List Char) (c : Char)
    (hc : toUpperChar c ∈ alphabet) :
    (encryptChar (process (mkEnigma ids pos rings pairs) ms).1 c).2 ∈ alphabet ∧
    (encryptChar (process (mkEnigma ids pos rings pairs) ms).1 c).2 ≠ toUpperChar c := by
  have hw : WellFormed (mkEnigma ids pos rings pairs) := mkEnigma_wf ids pos rings pairs hv
  have hw1 : WellFormed (process (mkEnigma ids pos rings pairs) ms).1 :=
    WellFormed_processChars _ _ hw
  have hw2 : WellFormed (stepRotors (process (mkEnigma ids pos rings pairs) ms).1) :=
    WellFormed_stepRotors _ hw1
  rw [encryptChar_alpha _ _ hc]
  exact ⟨encOut_alpha _ hw2.2.2.2 _ hc, encOut_ne _ hw2 _ hc⟩

/-- C10 (witness): the fresh test engine encrypts A to a letter other
than A. -/
theorem C10_no_fixed_points_witness :
    (encryptChar (process (mkEnigma [0, 1, 2] [0, 0, 0] [0, 0, 0] []) []).1 'A').2
        ∈ alphabet ∧
    (encryptChar (process (mkEnigma [0, 1, 2] [0, 0, 0] [0, 0, 0] []) []).1 'A').2
        ≠ toUpperChar 'A' :=
  C10_no_fixed_points [0, 1, 2] [0, 0, 0] [0, 0, 0] [] (by decide) [] 'A' (by decide)

/-- C8: case normalization: for every engine (hence for two fresh engines
built from any one configuration) and every message, `process` of the
message equals `process` of its uppercased form; in particular
`process "hello" = process "HELLO"`. -/
theorem C8_case_normalization (e : Enigma) (cs : List Char) :
    process e cs = process e (cs.map toUpperChar) := by
  unfold process
  rw [map_toUpper_toUpper]
